import Mathlib

/-!
Verification of the keyed state/diff/expiry engine of the ESP32 CAN monitor.

The definitions below are a shallow embedding of the C++ source:
`CanRX` (main loop ingestion), the anonymous-namespace change ledger
(`pruneHistoryForId`, `pruneAllHistory`, `collectHighlightMask`), and the
`WebInterface` query functions (`recordChange`, `generateLatestRows`,
`generateIdListJson`, `parseIdList`, `generateFilteredRows`).

Machine `uint32_t` arithmetic is modelled as `Nat` with explicit reduction
modulo `2 ^ 32` where the C code relies on unsigned wraparound (the
`now - timestamp` age computations).  Byte values are plain `Nat` (no byte
arithmetic ever overflows in the source: bytes are only compared).  The
`std::map` containers become association lists with first-match lookup;
`std::map::erase` removes every binding of the key (a real `std::map`
cannot hold duplicates, so the two readings agree on representable states).
HTML rendering is abstracted away: a table row becomes a `RowData` record
holding exactly the data fields the source interpolates into the markup.
-/

namespace ESPCan

/-- `2 ^ 32`, the modulus of `uint32_t` arithmetic. -/
def U32 : Nat := 4294967296

/-- `constexpr uint32_t CHANGE_EXPIRATION_MS = 10000;` -/
def CHANGE_EXPIRATION_MS : Nat := 10000

/-- Unsigned 32-bit subtraction `a - b` with wraparound, as C computes
`now - record.timestamp` on `uint32_t` operands. -/
def u32sub (a b : Nat) : Nat := (a % U32 + (U32 - b % U32)) % U32

/-- `struct CANMessage { uint32_t timestamp; uint32_t id; uint8_t length;
uint8_t data[8]; }`.  Only the first `length` entries of `data` are ever
read by the source; reads are modelled with `List.getD · 0`. -/
structure CANMessage where
  timestamp : Nat
  id : Nat
  length : Nat
  data : List Nat
  deriving Repr, DecidableEq

/-- `struct ChangeRecord { uint32_t timestamp; uint8_t byteIndex;
uint8_t oldValue; uint8_t newValue; }`. -/
structure ChangeRecord where
  timestamp : Nat
  byteIndex : Nat
  oldValue : Nat
  newValue : Nat
  deriving Repr, DecidableEq

/-- The change ledger `std::unordered_map<uint32_t, std::vector<ChangeRecord>>
s_changeHistory`, as an association list. -/
abbrev History := List (Nat × List ChangeRecord)

/-- `s_changeHistory.find(id)`: first binding of `id`, if any. -/
def findHist : History → Nat → Option (List ChangeRecord)
  | [], _ => none
  | (k, l) :: rest, id => if k = id then some l else findHist rest id

/-- `s_changeHistory.erase(it)` where `it` is the binding found for `id`. -/
def eraseHist : History → Nat → History
  | [], _ => []
  | (k, l) :: rest, id => if k = id then rest else (k, l) :: eraseHist rest id

/-- In-place overwrite of the vector held for `id` (the effect of
`history.erase(remove_if(...))` on the found binding). -/
def replaceHist : History → Nat → List ChangeRecord → History
  | [], _, _ => []
  | (k, l) :: rest, id, l' =>
      if k = id then (k, l') :: rest else (k, l) :: replaceHist rest id l'

/-- `s_changeHistory[id]` followed by `insert(history.end(), ...)`: append
records to the vector of `id`, creating the binding if absent. -/
def appendHist : History → Nat → List ChangeRecord → History
  | [], id, recs => [(id, recs)]
  | (k, l) :: rest, id, recs =>
      if k = id then (k, l ++ recs) :: rest else (k, l) :: appendHist rest id recs

/-- The eviction predicate of every prune: `now - record.timestamp >
CHANGE_EXPIRATION_MS` in `uint32_t` arithmetic. -/
def expired (now ts : Nat) : Bool := CHANGE_EXPIRATION_MS < u32sub now ts

/-- `history.erase(remove_if(history, expired), history.end())`: the
surviving events of one key's vector. -/
def pruneList (now : Nat) (l : List ChangeRecord) : List ChangeRecord :=
  l.filter (fun r => !expired now r.timestamp)

/-- `pruneHistoryForId(uint32_t id, uint32_t now)`. -/
def pruneHistoryForId (id now : Nat) (h : History) : History :=
  match findHist h id with
  | none => h
  | some l =>
      let l' := pruneList now l
      if l'.isEmpty then eraseHist h id else replaceHist h id l'

/-- `pruneAllHistory(uint32_t now)`. -/
def pruneAllHistory (now : Nat) : History → History
  | [] => []
  | (k, l) :: rest =>
      let l' := pruneList now l
      if l'.isEmpty then pruneAllHistory now rest
      else (k, l') :: pruneAllHistory now rest

/-- The `std::array<bool, 8>` mask filled by `collectHighlightMask`:
bit `i` is set exactly when some record has `byteIndex == i` (the source
loop sets `mask[record.byteIndex]` for every record with `byteIndex < 8`,
starting from all-false). -/
def maskOf (l : List ChangeRecord) : List Bool :=
  (List.range 8).map (fun i => l.any (fun r => r.byteIndex == i))

/-- The all-false mask returned when no event survives. -/
def falseMask : List Bool := List.replicate 8 false

/-- The `lastChangeTimestamp` accumulation: starts at `0`, raised to each
surviving record's timestamp that exceeds it. -/
def lastChangeOf (l : List ChangeRecord) : Nat :=
  l.foldl (fun acc r => if acc < r.timestamp then r.timestamp else acc) 0

/-- `collectHighlightMask(uint32_t id, uint32_t now, uint32_t&
lastChangeTimestamp)`: returns `((mask, lastChangeTimestamp), history')`
where `history'` is the mutated `s_changeHistory` (the function prunes the
key's vector in place and erases the binding if it empties). -/
def collectHighlightMask (id now : Nat) (h : History) :
    (List Bool × Nat) × History :=
  match findHist h id with
  | none => ((falseMask, 0), h)
  | some l =>
      let l' := pruneList now l
      if l'.isEmpty then ((falseMask, 0), eraseHist h id)
      else ((maskOf l', lastChangeOf l'), replaceHist h id l')

/-- The `std::map<uint32_t, CANMessage>` state maps, as association lists. -/
abbrev MsgMap := List (Nat × CANMessage)

/-- `map.find(id)` on the message maps. -/
def lookupMsg : MsgMap → Nat → Option CANMessage
  | [], _ => none
  | (k, v) :: rest, id => if k = id then some v else lookupMsg rest id

/-- `map[id] = msg`: overwrite the binding of `id`, create it if absent. -/
def insertMsg : MsgMap → Nat → CANMessage → MsgMap
  | [], id, msg => [(id, msg)]
  | (k, v) :: rest, id, msg =>
      if k = id then (id, msg) :: rest else (k, v) :: insertMsg rest id msg

/-- `map.erase(id)`: remove the binding of `id` (a `std::map` holds at most
one, so removing every occurrence is the faithful reading). -/
def eraseMsg : MsgMap → Nat → MsgMap
  | [], _ => []
  | (k, v) :: rest, id =>
      if k = id then eraseMsg rest id else (k, v) :: eraseMsg rest id

/-- The whole engine state: `latestMessages`, `previousMessages`
(owned by `main.cpp`, shared with `WebInterface` via `setMessageMaps`)
and the change ledger `s_changeHistory`. -/
structure EngineState where
  latestMessages : MsgMap
  previousMessages : MsgMap
  changeHistory : History
  deriving Repr, DecidableEq

/-- The state at boot: all maps empty. -/
def emptyState : EngineState := ⟨[], [], []⟩

/-- The per-byte change detection of `WebInterface::recordChange`: the
list of `ChangeRecord`s pushed onto `newRecords` by the
`for (i = 0; i < current.length; ++i)` loop.  `now` is the `millis()`
sample taken at the head of `recordChange`. -/
def newChangeRecords (current : CANMessage) (previous : Option CANMessage)
    (now : Nat) : List ChangeRecord :=
  let lengthChanged : Bool :=
    match previous with
    | none => true
    | some p => p.length != current.length
  (List.range current.length).filterMap (fun i =>
    let valueChanged : Bool :=
      match previous with
      | none => true
      | some p => decide (p.length ≤ i) || (current.data.getD i 0 != p.data.getD i 0)
    if lengthChanged || valueChanged then
      some { timestamp := now
             byteIndex := i
             newValue := current.data.getD i 0
             oldValue :=
               match previous with
               | some p => if i < p.length then p.data.getD i 0 else current.data.getD i 0
               | none => current.data.getD i 0 }
    else none)

/-- `WebInterface::recordChange(current, previous)`: prune the key's
events, then append one record per changed byte (the binding is only
touched when at least one record was produced). -/
def recordChange (current : CANMessage) (previous : Option CANMessage)
    (now : Nat) (h : History) : History :=
  let h1 := pruneHistoryForId current.id now h
  let newRecords := newChangeRecords current previous now
  if newRecords.isEmpty then h1 else appendHist h1 current.id newRecords

/-- One received frame, as handled by `CanRX()` in `main.cpp`: move the
dethroned latest record (if any) to `previousMessages` — erasing any stale
`previous` binding on a first reception — call
`WebInterface::recordChange`, and install the frame as latest.  The
`millis()` call inside `recordChange` is the same clock sample that
stamped the message, so it is passed as `msg.timestamp`. -/
def CanRX (msg : CANMessage) (st : EngineState) : EngineState :=
  match lookupMsg st.latestMessages msg.id with
  | some old =>
      { latestMessages := insertMsg st.latestMessages msg.id msg
        previousMessages := insertMsg st.previousMessages msg.id old
        changeHistory := recordChange msg (some old) msg.timestamp st.changeHistory }
  | none =>
      { latestMessages := insertMsg st.latestMessages msg.id msg
        previousMessages := eraseMsg st.previousMessages msg.id
        changeHistory := recordChange msg none msg.timestamp st.changeHistory }

/-- A sequence of received frames, in arrival order. -/
def ingestAll (ms : List CANMessage) (st : EngineState) : EngineState :=
  ms.foldl (fun s m => CanRX m s) st

/-- The data fields a generated table row interpolates into its markup:
key, length, byte values, per-byte highlight flags, RX timestamp, and the
displayed age. -/
structure RowData where
  id : Nat
  length : Nat
  bytes : List Nat
  highlights : List Bool
  timestamp : Nat
  age : Nat
  deriving Repr, DecidableEq

/-- The highlight decision for byte `i` of a row, exactly as both row
generators compute it: start from the ledger mask bit (false out of
range), and only when that bit is clear and a previous record exists,
compare directly against the previous record (shorter counts as
changed). -/
def rowHighlight (mask : List Bool) (prevOpt : Option CANMessage)
    (msg : CANMessage) (i : Nat) : Bool :=
  let h0 := mask.getD i false
  match prevOpt with
  | some prev =>
      if !h0 then decide (prev.length ≤ i) || decide (msg.data.getD i 0 ≠ prev.data.getD i 0)
      else h0
  | none => h0

/-- One iteration of the `generateLatestRows` loop for the map entry
`(k, msg)`: the produced row and the ledger state after the
`collectHighlightMask` call (which prunes `k`'s events).  The age shown is
`currentTime - msg.timestamp`. -/
def latestRowFor (now : Nat) (prevMap : MsgMap) (h : History)
    (k : Nat) (msg : CANMessage) : RowData × History :=
  let res := collectHighlightMask k now h
  let mask := res.1.1
  let h' := res.2
  let prevOpt := lookupMsg prevMap k
  ({ id := k
     length := msg.length
     bytes := (List.range msg.length).map (fun i => msg.data.getD i 0)
     highlights := (List.range msg.length).map (rowHighlight mask prevOpt msg)
     timestamp := msg.timestamp
     age := u32sub now msg.timestamp }, h')

/-- `WebInterface::generateLatestRows()`: one row per `latestMessages`
entry, threading the ledger mutations of `collectHighlightMask`. -/
def generateLatestRows (now : Nat) (st : EngineState) :
    List RowData × History :=
  st.latestMessages.foldl
    (fun acc kv =>
      let res := latestRowFor now st.previousMessages acc.2 kv.1 kv.2
      (acc.1 ++ [res.1], res.2))
    ([], st.changeHistory)

/-- One iteration of the `generateFilteredRows` loop for a selected map
entry `(k, msg)`: `none` when the row is skipped (no surviving change —
the `lastChangeTimestamp == 0` sentinel — or change older than the
window).  The age shown is `currentTime - lastChangeTimestamp`. -/
def filteredRowFor (now : Nat) (prevMap : MsgMap) (h : History)
    (k : Nat) (msg : CANMessage) : Option RowData × History :=
  let res := collectHighlightMask k now h
  let mask := res.1.1
  let lastTs := res.1.2
  let h' := res.2
  if lastTs = 0 then (none, h')
  else if CHANGE_EXPIRATION_MS < u32sub now lastTs then (none, h')
  else
    let prevOpt := lookupMsg prevMap k
    (some { id := k
            length := msg.length
            bytes := (List.range msg.length).map (fun i => msg.data.getD i 0)
            highlights := (List.range msg.length).map (rowHighlight mask prevOpt msg)
            timestamp := msg.timestamp
            age := u32sub now lastTs }, h')

/-- `WebInterface::generateFilteredRows(ids)`: iterate `latestMessages`,
keep the keys in the requested set, and emit a row only for keys with a
live change.  The placeholder rows returned for an uninitialized map or an
empty result are presentation only and are not modelled. -/
def generateFilteredRows (ids : List Nat) (now : Nat) (st : EngineState) :
    List RowData × History :=
  st.latestMessages.foldl
    (fun acc kv =>
      if kv.1 ∈ ids then
        match filteredRowFor now st.previousMessages acc.2 kv.1 kv.2 with
        | (some row, h') => (acc.1 ++ [row], h')
        | (none, h') => (acc.1, h')
      else acc)
    ([], st.changeHistory)

/-- Ascending `std::sort` on the collected id vector. -/
def sortNat (l : List Nat) : List Nat := l.insertionSort (fun a b => a ≤ b)

/-- `WebInterface::generateIdListJson()` of `src/src/web_interface.cpp`
(the current revision): prune every key's events, then list the keys of
the overall `latestMessages` map — all known ids, regardless of change age
— sorted ascending.  The JSON quoting is presentation and not modelled;
the result is the id list the JSON array carries, plus the mutated
state. -/
def generateIdListJson (now : Nat) (st : EngineState) :
    List Nat × EngineState :=
  let h' := pruneAllHistory now st.changeHistory
  let ids := st.latestMessages.map (fun kv => kv.1)
  (sortNat ids, { st with changeHistory := h' })

/-- `WebInterface::generateIdListJson()` of the earlier revision (the
unnamed source file): prune every key's events, then list only the keys
that still have a ledger binding and are present in `latestMessages`,
sorted ascending. -/
def generateIdListJsonPrev (now : Nat) (st : EngineState) :
    List Nat × EngineState :=
  let h' := pruneAllHistory now st.changeHistory
  let ids := (h'.map (fun kv => kv.1)).filter
    (fun k => (lookupMsg st.latestMessages k).isSome)
  (sortNat ids, { st with changeHistory := h' })

/-! ### `parseIdList` and the id serialization

The `ids` request parameter is a plain character sequence, modelled as
`List Char`.  Arduino `String` operations are mirrored per character:
`trim` strips `isspace` bytes at both ends, `toUpperCase` maps ASCII
lower-case letters, `startsWith("0X")` inspects the first two characters,
and `strtoul(token, &endPtr, 16)` is the C library parse (optional sign,
optional `0x` prefix, hex digits, clamped to `ULONG_MAX` on overflow); the
source keeps a token's value exactly when `endPtr` advanced. -/

/-- `isspace` on the ASCII bytes Arduino `String::trim` removes. -/
def isSpaceCh (c : Char) : Bool :=
  c = ' ' || c = '\t' || c = '\n' || c = '\x0b' || c = '\x0c' || c = '\r'

/-- ASCII `toupper`, as `String::toUpperCase` applies per character. -/
def upChar (c : Char) : Char :=
  if 'a' ≤ c && c ≤ 'z' then Char.ofNat (c.toNat - 32) else c

/-- `String::trim()`: drop leading and trailing whitespace. -/
def trimChars (s : List Char) : List Char :=
  ((s.dropWhile isSpaceCh).reverse.dropWhile isSpaceCh).reverse

/-- The tokenization of the `parseIdList` loop: substrings between commas,
in order, keeping empty pieces (`"a,,b"` gives three tokens). -/
def splitTokens : List Char → List (List Char)
  | [] => [[]]
  | c :: rest =>
      if c = ',' then [] :: splitTokens rest
      else
        match splitTokens rest with
        | t :: ts => (c :: t) :: ts
        | [] => [[c]]

/-- Hexadecimal digit test of `strtoul` with base 16. -/
def isHexDigitCh (c : Char) : Bool :=
  ('0' ≤ c && c ≤ '9') || ('A' ≤ c && c ≤ 'F') || ('a' ≤ c && c ≤ 'f')

/-- Digit value of a hexadecimal character. -/
def hexVal (c : Char) : Nat :=
  if c ≤ '9' then c.toNat - '0'.toNat
  else if c ≤ 'F' then c.toNat - 'A'.toNat + 10
  else c.toNat - 'a'.toNat + 10

/-- The digit sequence `strtoul(s, _, 16)` consumes after the optional
sign: an optional `0x`/`0X` prefix is skipped when a hex digit follows;
a bare `0x` with no digit after it consumes just the `0`. -/
def hexDigitsOf (s : List Char) : List Char :=
  match s with
  | a :: b :: rest =>
      if a = '0' ∧ (b = 'x' ∨ b = 'X') then
        match rest with
        | d :: _ => if isHexDigitCh d then rest.takeWhile isHexDigitCh else ['0']
        | [] => ['0']
      else s.takeWhile isHexDigitCh
  | _ => s.takeWhile isHexDigitCh

/-- `strtoul(s, &endPtr, 16)` on a whitespace-free string: `some value`
exactly when `endPtr` advances past at least one character.  A leading
`-` negates modulo `2 ^ 32`; a value too large clamps to `ULONG_MAX`
(32-bit on this target). -/
def strtoul16 (s : List Char) : Option Nat :=
  let signBody : Bool × List Char :=
    match s with
    | c :: r => if c = '-' then (true, r) else if c = '+' then (false, r) else (false, c :: r)
    | [] => (false, [])
  let ds := hexDigitsOf signBody.2
  if ds.isEmpty then none
  else
    let raw := ds.foldl (fun a c => a * 16 + hexVal c) 0
    let v := if raw ≥ U32 then U32 - 1 else raw
    some (if signBody.1 then (U32 - v) % U32 else v)

/-- The per-token body of the `parseIdList` loop: trim, discard if empty,
upper-case, strip a leading `0X`, then `strtoul` base 16; `none` when the
token is discarded. -/
def parseToken (tok : List Char) : Option Nat :=
  let t := trimChars tok
  if t.length = 0 then none
  else
    let u := t.map upChar
    let u2 := if u.take 2 = ['0', 'X'] then u.drop 2 else u
    strtoul16 u2

/-- `WebInterface::parseIdList(rawIds)`: empty input short-circuits to the
empty list, otherwise every comma-separated token is parsed and the
malformed ones are dropped. -/
def parseIdList (rawIds : List Char) : List Nat :=
  if rawIds.isEmpty then []
  else (splitTokens rawIds).filterMap parseToken

/-- Hexadecimal digit character, lower case, as `String(value, HEX)`
renders. -/
def hexDigitChar (d : Nat) : Char :=
  if d < 10 then Char.ofNat (48 + d) else Char.ofNat (87 + d)

/-- `String(n, HEX)`: lower-case hexadecimal, no prefix, no leading
zeros (`"0"` for zero). -/
def hexChars (n : Nat) : List Char :=
  if _h : n < 16 then [hexDigitChar n]
  else hexChars (n / 16) ++ [hexDigitChar (n % 16)]
  decreasing_by exact Nat.div_lt_self (by omega) (by omega)

/-- One serialized identifier as `generateIdListJson` emits it into the
JSON array: `"0x"` followed by the lower-case hex digits. -/
def idToken (n : Nat) : List Char := '0' :: 'x' :: hexChars n

/-- `Array.from(selectedIds).join(',')`: the client joins the id strings
with commas to build the `ids` request parameter. -/
def joinComma : List (List Char) → List Char
  | [] => []
  | [t] => t
  | t :: ts => t ++ ',' :: joinComma ts

/-- The serialized form of a key list as it travels back to the parser:
the `0x`-prefixed hexadecimal identifiers produced by the id-list
serialization, comma-joined. -/
def serializeIds (ids : List Nat) : List Char := joinComma (ids.map idToken)

/-- The highlight rule as §4.4 of the specification words it: the union of
the ledger mask bit and a direct comparison against `previous`, where a
missing or shorter previous record counts as differing.  Written from the
spec, to be compared against `rowHighlight`. -/
def specHighlight (mask : List Bool) (prevOpt : Option CANMessage)
    (msg : CANMessage) (i : Nat) : Bool :=
  mask.getD i false ||
    match prevOpt with
    | none => true
    | some prev => decide (prev.length ≤ i) || decide (msg.data.getD i 0 ≠ prev.data.getD i 0)

/-! ### Concrete scenario states used by witnesses and counterexamples -/

/-- Scenario A, first frame: `(key=0x123, length=8,
payload=[01,02,FF,04,05,06,07,08], t=0)`. -/
def scenarioA1 : CANMessage := ⟨0, 291, 8, [1, 2, 255, 4, 5, 6, 7, 8]⟩

/-- Scenario A, second frame: `(key=0x123, length=8,
payload=[01,02,FE,04,05,06,07,08], t=100)`. -/
def scenarioA2 : CANMessage := ⟨100, 291, 8, [1, 2, 254, 4, 5, 6, 7, 8]⟩

/-- The engine state after ingesting the two Scenario A frames. -/
def scenarioAState : EngineState := CanRX scenarioA2 (CanRX scenarioA1 emptyState)

/-- Scenario C state: a single frame for key `0x300` ingested at `t=0`
(its ingestion records a change event for its one byte). -/
def scenario300State : EngineState := CanRX ⟨0, 768, 1, [1]⟩ emptyState

/-- A single frame for key `1` ingested at `t=0`: its key has no previous
record, and its first-ingestion change events expire at `t=20000`. -/
def scenarioFirstOnly : EngineState := CanRX ⟨0, 1, 1, [170]⟩ emptyState

/-- A ledger holding one event for key `7`, stamped `t=4000`. -/
def staleLedger : History := [(7, [⟨4000, 0, 0, 0⟩])]

/-! ### Helper lemmas on the map operations -/

theorem u32sub_eq_sub (a b : Nat) (hba : b ≤ a) (ha : a < U32) :
    u32sub a b = a - b := by
  have hb : b < U32 := lt_of_le_of_lt hba ha
  unfold u32sub
  rw [Nat.mod_eq_of_lt ha, Nat.mod_eq_of_lt hb]
  have h1 : a + (U32 - b) = (a - b) + U32 := by omega
  rw [h1, Nat.add_mod_right, Nat.mod_eq_of_lt (by omega)]

theorem lookupMsg_insertMsg_self (m : MsgMap) (k : Nat) (v : CANMessage) :
    lookupMsg (insertMsg m k v) k = some v := by
  induction m with
  | nil => simp [insertMsg, lookupMsg]
  | cons kv rest ih =>
      obtain ⟨k', v'⟩ := kv
      by_cases h : k' = k
      · simp [insertMsg, h, lookupMsg]
      · simp [insertMsg, h, lookupMsg, ih]

theorem lookupMsg_insertMsg_ne (m : MsgMap) (k k' : Nat) (v : CANMessage)
    (hne : k' ≠ k) : lookupMsg (insertMsg m k v) k' = lookupMsg m k' := by
  induction m with
  | nil => simp [insertMsg, lookupMsg, Ne.symm hne, hne]
  | cons kv rest ih =>
      obtain ⟨k0, v0⟩ := kv
      by_cases h : k0 = k
      · subst h
        simp [insertMsg, lookupMsg, Ne.symm hne]
      · simp [insertMsg, h, lookupMsg, ih]

theorem lookupMsg_eraseMsg_self (m : MsgMap) (k : Nat) :
    lookupMsg (eraseMsg m k) k = none := by
  induction m with
  | nil => simp [eraseMsg, lookupMsg]
  | cons kv rest ih =>
      obtain ⟨k0, v0⟩ := kv
      by_cases h : k0 = k
      · simp [eraseMsg, h, ih]
      · simp [eraseMsg, h, lookupMsg, ih]

theorem lookupMsg_eraseMsg_ne (m : MsgMap) (k k' : Nat)
    (hne : k' ≠ k) : lookupMsg (eraseMsg m k) k' = lookupMsg m k' := by
  induction m with
  | nil => simp [eraseMsg]
  | cons kv rest ih =>
      obtain ⟨k0, v0⟩ := kv
      by_cases h : k0 = k
      · subst h
        simp [eraseMsg, lookupMsg, Ne.symm hne, ih]
      · simp [eraseMsg, h, lookupMsg, ih]

theorem findHist_eraseHist_ne (h : History) (id k : Nat)
    (hne : k ≠ id) : findHist (eraseHist h id) k = findHist h k := by
  induction h with
  | nil => simp [eraseHist]
  | cons kv rest ih =>
      obtain ⟨k0, l0⟩ := kv
      by_cases hk : k0 = id
      · subst hk
        simp [eraseHist, findHist, Ne.symm hne]
      · simp [eraseHist, hk, findHist, ih]

theorem findHist_replaceHist_ne (h : History) (id k : Nat)
    (l : List ChangeRecord) (hne : k ≠ id) :
    findHist (replaceHist h id l) k = findHist h k := by
  induction h with
  | nil => simp [replaceHist]
  | cons kv rest ih =>
      obtain ⟨k0, l0⟩ := kv
      by_cases hk : k0 = id
      · subst hk
        simp [replaceHist, findHist, Ne.symm hne]
      · simp [replaceHist, hk, findHist, ih]

theorem findHist_replaceHist_self (h : History) (id : Nat)
    (l0 l : List ChangeRecord) (hfound : findHist h id = some l0) :
    findHist (replaceHist h id l) id = some l := by
  induction h with
  | nil => simp [findHist] at hfound
  | cons kv rest ih =>
      obtain ⟨k0, l1⟩ := kv
      by_cases hk : k0 = id
      · simp [replaceHist, hk, findHist]
      · simp only [findHist, if_neg hk] at hfound
        simp [replaceHist, hk, findHist, ih hfound]

theorem findHist_eq_none_of_not_mem (h : History) (id : Nat)
    (hnot : id ∉ h.map Prod.fst) : findHist h id = none := by
  induction h with
  | nil => rfl
  | cons kv rest ih =>
      obtain ⟨k0, l0⟩ := kv
      simp only [List.map_cons, List.mem_cons] at hnot
      push_neg at hnot
      simp [findHist, Ne.symm hnot.1, ih hnot.2]

theorem findHist_eraseHist_self (h : History) (id : Nat)
    (hnd : (h.map Prod.fst).Nodup) : findHist (eraseHist h id) id = none := by
  induction h with
  | nil => rfl
  | cons kv rest ih =>
      obtain ⟨k0, l0⟩ := kv
      simp only [List.map_cons, List.nodup_cons] at hnd
      by_cases hk : k0 = id
      · subst hk
        simp only [eraseHist, if_pos rfl]
        exact findHist_eq_none_of_not_mem rest k0 hnd.1
      · simp [eraseHist, hk, findHist, ih hnd.2]

theorem findHist_pruneHistoryForId_ne (h : History) (id now k : Nat)
    (hne : k ≠ id) :
    findHist (pruneHistoryForId id now h) k = findHist h k := by
  unfold pruneHistoryForId
  cases hf : findHist h id with
  | none => rfl
  | some l =>
      by_cases he : (pruneList now l).isEmpty
      · simp [he, findHist_eraseHist_ne h id k hne]
      · simp [he, findHist_replaceHist_ne h id k _ hne]

theorem collectHighlightMask_snd (id now : Nat) (h : History) :
    (collectHighlightMask id now h).2 = pruneHistoryForId id now h := by
  unfold collectHighlightMask pruneHistoryForId
  cases findHist h id with
  | none => rfl
  | some l =>
      by_cases he : (pruneList now l).isEmpty <;> simp [he]

theorem mem_eraseHist (h : History) (id : Nat) (x : Nat × List ChangeRecord)
    (hx : x ∈ eraseHist h id) : x ∈ h := by
  induction h with
  | nil => simp [eraseHist] at hx
  | cons kv rest ih =>
      by_cases hk : kv.1 = id
      · obtain ⟨k0, l0⟩ := kv
        simp only at hk
        simp only [eraseHist, if_pos hk] at hx
        exact List.mem_cons_of_mem _ hx
      · obtain ⟨k0, l0⟩ := kv
        simp only at hk
        simp only [eraseHist, if_neg hk, List.mem_cons] at hx
        rcases hx with hx | hx
        · exact hx ▸ List.mem_cons_self _ _
        · exact List.mem_cons_of_mem _ (ih hx)

theorem mem_replaceHist (h : History) (id : Nat) (l : List ChangeRecord)
    (x : Nat × List ChangeRecord) (hx : x ∈ replaceHist h id l) :
    x ∈ h ∨ x.2 = l := by
  induction h with
  | nil => simp [replaceHist] at hx
  | cons kv rest ih =>
      obtain ⟨k0, l0⟩ := kv
      by_cases hk : k0 = id
      · simp only [replaceHist, if_pos hk, List.mem_cons] at hx
        rcases hx with hx | hx
        · right; rw [hx]
        · exact Or.inl (List.mem_cons_of_mem _ hx)
      · simp only [replaceHist, if_neg hk, List.mem_cons] at hx
        rcases hx with hx | hx
        · exact Or.inl (hx ▸ List.mem_cons_self _ _)
        · rcases ih hx with h' | h'
          · exact Or.inl (List.mem_cons_of_mem _ h')
          · exact Or.inr h'

theorem getD_map_range {α : Type} (f : Nat → α) (n i : Nat) (d : α)
    (hi : i < n) : (((List.range n).map f).getD i d) = f i := by
  rw [List.getD_eq_getElem?_getD, List.getElem?_map, List.getElem?_range hi]
  rfl

theorem pruneList_idem (now : Nat) (l : List ChangeRecord) :
    pruneList now (pruneList now l) = pruneList now l := by
  unfold pruneList
  rw [List.filter_filter]
  simp

theorem pruneList_eq_self (now : Nat) (l : List ChangeRecord)
    (hl : ∀ r ∈ l, expired now r.timestamp = false) :
    pruneList now l = l := by
  unfold pruneList
  rw [List.filter_eq_self]
  intro r hr
  simp [hl r hr]

theorem lastChangeOf_eq_zero (l : List ChangeRecord)
    (hl : ∀ r ∈ l, r.timestamp = 0) : lastChangeOf l = 0 := by
  unfold lastChangeOf
  induction l with
  | nil => rfl
  | cons r rest ih =>
      rw [List.foldl_cons]
      have hr := hl r (List.mem_cons_self _ _)
      rw [hr]
      simpa using ih (fun r' hr' => hl r' (List.mem_cons_of_mem _ hr'))

/-! ### C1: pairing invariant of `latestMessages` / `previousMessages` -/

/-- **C1** (pairing invariant).  After any sequence of `CanRX` ingestions
from boot, for every key `k`: the stored latest record is the last
ingested record with id `k`, and the stored previous record is the record
installed by the immediately preceding ingestion for `k` — the
second-to-last record with id `k` — and is absent when at most one record
with id `k` was ingested (in particular, on the very first record for a
key, previous is absent rather than equal to latest). -/
theorem canRX_pairing_invariant (ms : List CANMessage) (k : Nat) :
    lookupMsg (ingestAll ms emptyState).latestMessages k
      = (ms.filter (fun m => m.id == k)).getLast?
    ∧ lookupMsg (ingestAll ms emptyState).previousMessages k
      = ((ms.filter (fun m => m.id == k)).dropLast).getLast? := by
  induction ms using List.reverseRecOn generalizing k with
  | nil => simp [ingestAll, emptyState, lookupMsg]
  | append_singleton l m ih =>
      have hstep : ingestAll (l ++ [m]) emptyState
          = CanRX m (ingestAll l emptyState) := by
        simp [ingestAll]
      rw [hstep, List.filter_append]
      by_cases hk : m.id = k
      · have hfm : List.filter (fun m' => m'.id == k) [m] = [m] := by
          simp [List.filter, hk]
        rw [hfm]
        subst hk
        constructor
        · rw [List.getLast?_concat]
          unfold CanRX
          cases hlat : lookupMsg (ingestAll l emptyState).latestMessages m.id <;>
            simp [lookupMsg_insertMsg_self]
        · rw [List.dropLast_concat]
          unfold CanRX
          cases hlat : lookupMsg (ingestAll l emptyState).latestMessages m.id with
          | none =>
              simp only
              rw [lookupMsg_eraseMsg_self]
              have h1 := (ih m.id).1
              rw [hlat] at h1
              have hnil : List.filter (fun m' => m'.id == m.id) l = [] :=
                List.getLast?_eq_none_iff.mp h1.symm
              rw [hnil]
              rfl
          | some old =>
              simp only
              rw [lookupMsg_insertMsg_self]
              have h1 := (ih m.id).1
              rw [hlat] at h1
              exact h1
      · have hbeq : (m.id == k) = false := beq_eq_false_iff_ne.mpr hk
        have hfm : List.filter (fun m' => m'.id == k) [m] = [] := by
          simp [List.filter, hbeq]
        rw [hfm, List.append_nil]
        have hkne : k ≠ m.id := fun h => hk h.symm
        unfold CanRX
        cases hlat : lookupMsg (ingestAll l emptyState).latestMessages m.id with
        | none =>
            simp only
            rw [lookupMsg_insertMsg_ne _ _ _ _ hkne,
              lookupMsg_eraseMsg_ne _ _ _ hkne]
            exact ih k
        | some old =>
            simp only
            rw [lookupMsg_insertMsg_ne _ _ _ _ hkne,
              lookupMsg_insertMsg_ne _ _ _ _ hkne]
            exact ih k

/-! ### C2: length change triggers a full highlight -/

theorem findHist_appendHist_self (h : History) (id : Nat)
    (recs : List ChangeRecord) :
    findHist (appendHist h id recs) id
      = some ((findHist h id).getD [] ++ recs) := by
  induction h with
  | nil => simp [appendHist, findHist]
  | cons kv rest ih =>
      obtain ⟨k0, l0⟩ := kv
      by_cases hk : k0 = id
      · simp [appendHist, hk, findHist]
      · simp [appendHist, hk, findHist, ih]

theorem newChangeRecords_timestamp (current : CANMessage)
    (previous : Option CANMessage) (now : Nat) :
    ∀ r ∈ newChangeRecords current previous now, r.timestamp = now := by
  intro r hr
  unfold newChangeRecords at hr
  rw [List.mem_filterMap] at hr
  obtain ⟨i, _, hi⟩ := hr
  simp only at hi
  split at hi
  · cases hi
    rfl
  · cases hi

/-- **C2** (length-change full-highlight).  Whenever the ingested record's
length differs from the prior record's — including the case of no prior
record — `recordChange` produces one change event per byte index of the
new record, regardless of byte value equality: the produced records'
indices are exactly `0, …, newLength - 1`, and each index ends up appended
to the key's ledger entry with timestamp `now`. -/
theorem recordChange_length_change_full_highlight
    (current : CANMessage) (previous : Option CANMessage) (now : Nat)
    (h : History) (i : Nat)
    (hlen : previous = none ∨ ∃ p, previous = some p ∧ p.length ≠ current.length)
    (hi : i < current.length) :
    (newChangeRecords current previous now).map (fun r => r.byteIndex)
      = List.range current.length
    ∧ ∃ r ∈ (findHist (recordChange current previous now h) current.id).getD [],
        r.byteIndex = i ∧ r.timestamp = now := by
  have hmap : (newChangeRecords current previous now).map (fun r => r.byteIndex)
      = List.range current.length := by
    rcases hlen with hnone | ⟨p, hp, hne⟩
    · subst hnone
      unfold newChangeRecords
      refine List.map_filterMap_of_inv _ _ (fun j => ?_) _
      rfl
    · subst hp
      have hbne : (p.length != current.length) = true := by simpa using hne
      unfold newChangeRecords
      simp only [hbne, Bool.true_or, if_true]
      refine List.map_filterMap_of_inv _ _ (fun j => ?_) _
      rfl
  refine ⟨hmap, ?_⟩
  have hi' : i ∈ (newChangeRecords current previous now).map (fun r => r.byteIndex) := by
    rw [hmap]
    exact List.mem_range.mpr hi
  obtain ⟨r, hrmem, hrb⟩ := List.mem_map.mp hi'
  have hts : r.timestamp = now := newChangeRecords_timestamp current previous now r hrmem
  have hnonempty : (newChangeRecords current previous now).isEmpty = false := by
    cases hl : newChangeRecords current previous now with
    | nil => rw [hl] at hrmem; cases hrmem
    | cons a as => rfl
  unfold recordChange
  simp only [hnonempty, Bool.false_eq_true, if_false]
  rw [findHist_appendHist_self]
  exact ⟨r, List.mem_append_right _ hrmem, hrb, hts⟩

/-- Witness for C2 at Scenario D of the specification: key `0x10` grows
from length 2 to length 4 with the first two bytes equal; all four byte
indices are marked changed. -/
theorem recordChange_length_change_full_highlight_witness :
    ((some (⟨0, 16, 2, [1, 2]⟩ : CANMessage) = none
        ∨ ∃ p, some (⟨0, 16, 2, [1, 2]⟩ : CANMessage) = some p
            ∧ p.length ≠ (⟨5, 16, 4, [1, 2, 3, 4]⟩ : CANMessage).length)
      ∧ 3 < (⟨5, 16, 4, [1, 2, 3, 4]⟩ : CANMessage).length)
    ∧ ((newChangeRecords ⟨5, 16, 4, [1, 2, 3, 4]⟩ (some ⟨0, 16, 2, [1, 2]⟩) 5).map
          (fun r => r.byteIndex) = List.range 4
        ∧ ∃ r ∈ (findHist (recordChange ⟨5, 16, 4, [1, 2, 3, 4]⟩
              (some ⟨0, 16, 2, [1, 2]⟩) 5 []) 16).getD [],
            r.byteIndex = 3 ∧ r.timestamp = 5) :=
  ⟨⟨Or.inr ⟨_, rfl, by decide⟩, by decide⟩,
    recordChange_length_change_full_highlight ⟨5, 16, 4, [1, 2, 3, 4]⟩
      (some ⟨0, 16, 2, [1, 2]⟩) 5 [] 3
      (Or.inr ⟨_, rfl, by decide⟩) (by decide)⟩

/-! ### C3: Scenario A -/

/-- **C3 counterexample.**  Scenario A expects the `summarize(0x123, 100)`
mask to have only byte index 2 true, but the very first ingestion of key
`0x123` (no previous record) recorded a change event for every byte at
`t=0`, and at `now=100` those events are still inside the 10000 ms
retention window: byte index 0 of the mask is also true. -/
theorem scenarioA_mask_not_only_index2 :
    ((collectHighlightMask 291 100 scenarioAState.changeHistory).1.1).getD 0 false
      = true := by decide

/-- **C3 amended.**  After the two Scenario A ingestions, the
`summarize(0x123, 100)` mask has every byte index `0..7` true (index 2
from the second frame, the rest from the unexpired first-ingestion
events), the last-change timestamp is 100, and the snapshot age of key
`0x123` at `now=100` is 0. -/
theorem scenarioA_mask_all_true_age_zero :
    (collectHighlightMask 291 100 scenarioAState.changeHistory).1.1
        = List.replicate 8 true
    ∧ (collectHighlightMask 291 100 scenarioAState.changeHistory).1.2 = 100
    ∧ (generateLatestRows 100 scenarioAState).1.map (fun r => r.age) = [0] := by
  decide

/-! ### C4: the tracked-keys query -/

/-- **C4 counterexample.**  A change ingested at `t=0` for key `0x300` is
expired and pruned when the id list is generated at `t=10001`
(`EXPIRATION_WINDOW = 10000`), yet `0x300` is still present in the
returned id list: the current `generateIdListJson` lists every key of
`latestMessages` regardless of ledger liveness.  (The earlier revision,
`generateIdListJsonPrev`, returned the empty list here, which is the
behaviour the claim describes.) -/
theorem trackedKeys_contains_expired_key :
    768 ∈ (generateIdListJson 10001 scenario300State).1
    ∧ findHist (pruneAllHistory 10001 scenario300State.changeHistory) 768 = none
    ∧ (generateIdListJsonPrev 10001 scenario300State).1 = [] := by decide

/-- **C4 amended.**  `generateIdListJson(now)` first prunes every key's
event list with respect to `now` and then returns, in ascending sorted
order, exactly the keys present in the `latestMessages` state store — all
known keys, irrespective of whether a change-ledger entry survived
pruning.  In particular a key whose only change event occurred at `t=0`
is still present at `t=10001`. -/
theorem generateIdListJson_all_known_keys (now : Nat) (st : EngineState) (k : Nat) :
    (k ∈ (generateIdListJson now st).1 ↔ k ∈ st.latestMessages.map Prod.fst)
    ∧ List.Sorted (· ≤ ·) (generateIdListJson now st).1
    ∧ (generateIdListJson now st).2.changeHistory
        = pruneAllHistory now st.changeHistory := by
  refine ⟨?_, ?_, rfl⟩
  · exact (List.perm_insertionSort _ _).mem_iff
  · exact List.sorted_insertionSort _ _

/-! ### C5: idempotence and monotonicity of pruning -/

theorem replaceHist_replaceHist (h : History) (id : Nat)
    (l1 l2 : List ChangeRecord) :
    replaceHist (replaceHist h id l1) id l2 = replaceHist h id l2 := by
  induction h with
  | nil => rfl
  | cons kv rest ih =>
      obtain ⟨k0, l0⟩ := kv
      by_cases hk : k0 = id
      · simp [replaceHist, hk]
      · simp [replaceHist, hk, ih]

theorem pruneAllHistory_idem (now : Nat) (h : History) :
    pruneAllHistory now (pruneAllHistory now h) = pruneAllHistory now h := by
  induction h with
  | nil => rfl
  | cons kv rest ih =>
      obtain ⟨k0, l0⟩ := kv
      by_cases he : (pruneList now l0).isEmpty
      · simp [pruneAllHistory, he, ih]
      · simp [pruneAllHistory, he, pruneList_idem, ih]

theorem pruneHistoryForId_idem (id now : Nat) (h : History)
    (hnd : (h.map Prod.fst).Nodup) :
    pruneHistoryForId id now (pruneHistoryForId id now h)
      = pruneHistoryForId id now h := by
  cases hf : findHist h id with
  | none =>
      have h1 : pruneHistoryForId id now h = h := by
        unfold pruneHistoryForId
        rw [hf]
      rw [h1, h1]
  | some l =>
      by_cases he : (pruneList now l).isEmpty
      · have h1 : pruneHistoryForId id now h = eraseHist h id := by
          unfold pruneHistoryForId
          rw [hf]
          simp [he]
        rw [h1]
        have h2 : findHist (eraseHist h id) id = none :=
          findHist_eraseHist_self h id hnd
        unfold pruneHistoryForId
        rw [h2]
      · have h1 : pruneHistoryForId id now h = replaceHist h id (pruneList now l) := by
          unfold pruneHistoryForId
          rw [hf]
          simp [he]
        rw [h1]
        have h2 : findHist (replaceHist h id (pruneList now l)) id
            = some (pruneList now l) :=
          findHist_replaceHist_self h id l _ hf
        unfold pruneHistoryForId
        rw [h2]
        simp [pruneList_idem, he, replaceHist_replaceHist]

theorem pruneList_mono (l : List ChangeRecord) (t1 t2 : Nat)
    (h12 : t1 ≤ t2) (h2 : t2 < U32) (hts : ∀ r ∈ l, r.timestamp ≤ t1) :
    pruneList t2 l ⊆ pruneList t1 l := by
  intro r hr
  unfold pruneList at hr ⊢
  rw [List.mem_filter] at hr ⊢
  obtain ⟨hrl, hrp⟩ := hr
  refine ⟨hrl, ?_⟩
  have hr1 : r.timestamp ≤ t1 := hts r hrl
  have e2 : u32sub t2 r.timestamp = t2 - r.timestamp :=
    u32sub_eq_sub _ _ (le_trans hr1 h12) h2
  have e1 : u32sub t1 r.timestamp = t1 - r.timestamp :=
    u32sub_eq_sub _ _ hr1 (lt_of_le_of_lt h12 h2)
  simp only [expired, Bool.not_eq_true', decide_eq_false_iff_not, not_lt] at hrp ⊢
  rw [e1]
  rw [e2] at hrp
  omega

/-- **C5 counterexample.**  As stated — over every event list and all
times `t1 ≤ t2` — monotonicity fails, because the expiry test is the
wraparound `uint32_t` difference `now - timestamp`: an event stamped
`4000` is expired when pruning at `now = 0` (the unsigned difference
wraps to `2^32 - 4000`) yet survives pruning at `now = 5000`, so the
surviving set at the later time is not a subset of the earlier one. -/
theorem pruning_monotonicity_counterexample :
    (0 : Nat) ≤ 5000
    ∧ pruneList 5000 [(⟨4000, 0, 0, 0⟩ : ChangeRecord)] = [⟨4000, 0, 0, 0⟩]
    ∧ pruneList 0 [(⟨4000, 0, 0, 0⟩ : ChangeRecord)] = []
    ∧ ¬ pruneList 5000 [(⟨4000, 0, 0, 0⟩ : ChangeRecord)]
        ⊆ pruneList 0 [(⟨4000, 0, 0, 0⟩ : ChangeRecord)] := by
  refine ⟨by decide, by decide, by decide, ?_⟩
  intro hsub
  have hmem : (⟨4000, 0, 0, 0⟩ : ChangeRecord)
      ∈ pruneList 5000 [(⟨4000, 0, 0, 0⟩ : ChangeRecord)] := by decide
  have hmem2 := hsub hmem
  rw [show pruneList 0 [(⟨4000, 0, 0, 0⟩ : ChangeRecord)] = [] from by decide] at hmem2
  cases hmem2

/-- **C5 amended.**  Pruning is idempotent: pruning an event list twice at
the same `now` equals pruning it once, and likewise for the whole-ledger
sweep and (for ledgers with distinct keys) the per-key prune.  Pruning is
monotonic — the surviving set at `t2 ≥ t1` is a subset of that at `t1` —
provided no event in the list is stamped later than `t1` (which the
non-decreasing `now` discipline of the engine guarantees) and the times
are `uint32_t` values. -/
theorem pruning_idempotent_and_monotonic (l : List ChangeRecord)
    (h : History) (id now t1 t2 : Nat) :
    pruneList now (pruneList now l) = pruneList now l
    ∧ pruneAllHistory now (pruneAllHistory now h) = pruneAllHistory now h
    ∧ ((h.map Prod.fst).Nodup →
        pruneHistoryForId id now (pruneHistoryForId id now h)
          = pruneHistoryForId id now h)
    ∧ (t1 ≤ t2 → t2 < U32 → (∀ r ∈ l, r.timestamp ≤ t1) →
        pruneList t2 l ⊆ pruneList t1 l) :=
  ⟨pruneList_idem now l, pruneAllHistory_idem now h,
    fun hnd => pruneHistoryForId_idem id now h hnd,
    fun h12 h2 hts => pruneList_mono l t1 t2 h12 h2 hts⟩

/-- Witness for C5 at a concrete ledger: the stale single-event ledger for
key `7`, pruned at `now = 0`, with window `t1 = 4000 ≤ t2 = 5000`. -/
theorem pruning_idempotent_and_monotonic_witness :
    ((staleLedger.map Prod.fst).Nodup
      ∧ (4000 : Nat) ≤ 5000 ∧ (5000 : Nat) < U32
      ∧ (∀ r ∈ [(⟨4000, 0, 0, 0⟩ : ChangeRecord)], r.timestamp ≤ 4000))
    ∧ (pruneList 0 (pruneList 0 [(⟨4000, 0, 0, 0⟩ : ChangeRecord)])
          = pruneList 0 [(⟨4000, 0, 0, 0⟩ : ChangeRecord)]
      ∧ pruneAllHistory 0 (pruneAllHistory 0 staleLedger)
          = pruneAllHistory 0 staleLedger
      ∧ pruneHistoryForId 7 0 (pruneHistoryForId 7 0 staleLedger)
          = pruneHistoryForId 7 0 staleLedger
      ∧ pruneList 5000 [(⟨4000, 0, 0, 0⟩ : ChangeRecord)]
          ⊆ pruneList 4000 [(⟨4000, 0, 0, 0⟩ : ChangeRecord)]) :=
  ⟨⟨by decide, by decide, by decide, by decide⟩,
    (pruning_idempotent_and_monotonic [⟨4000, 0, 0, 0⟩] staleLedger 7 0 4000 5000).1,
    (pruning_idempotent_and_monotonic [⟨4000, 0, 0, 0⟩] staleLedger 7 0 4000 5000).2.1,
    (pruning_idempotent_and_monotonic [⟨4000, 0, 0, 0⟩] staleLedger 7 0 4000 5000).2.2.1
      (by decide),
    (pruning_idempotent_and_monotonic [⟨4000, 0, 0, 0⟩] staleLedger 7 0 4000 5000).2.2.2
      (by decide) (by decide) (by decide)⟩

/-! ### C6: the post-prune ledger invariant -/

theorem pruneList_bounds (now : Nat) (l : List ChangeRecord) :
    ∀ r ∈ pruneList now l, u32sub now r.timestamp ≤ CHANGE_EXPIRATION_MS := by
  intro r hr
  have hp := List.of_mem_filter hr
  simp only [expired, Bool.not_eq_true', decide_eq_false_iff_not, not_lt] at hp
  exact hp

theorem pruneAllHistory_entries (now : Nat) (h : History) :
    ∀ x ∈ pruneAllHistory now h,
      x.2 ≠ [] ∧ ∀ r ∈ x.2, u32sub now r.timestamp ≤ CHANGE_EXPIRATION_MS := by
  induction h with
  | nil => intro x hx; cases hx
  | cons kv rest ih =>
      obtain ⟨k0, l0⟩ := kv
      intro x hx
      by_cases he : (pruneList now l0).isEmpty
      · rw [show pruneAllHistory now ((k0, l0) :: rest) = pruneAllHistory now rest
            from by simp [pruneAllHistory, he]] at hx
        exact ih x hx
      · rw [show pruneAllHistory now ((k0, l0) :: rest)
              = (k0, pruneList now l0) :: pruneAllHistory now rest
            from by simp [pruneAllHistory, he]] at hx
        rcases List.mem_cons.mp hx with heq | hx'
        · subst heq
          refine ⟨?_, pruneList_bounds now l0⟩
          intro h0
          have h0' : pruneList now l0 = [] := h0
          rw [h0'] at he
          exact he rfl
        · exact ih x hx'

theorem pruneHistoryForId_self_entry (id now : Nat) (h : History)
    (hnd : (h.map Prod.fst).Nodup) (l : List ChangeRecord)
    (hf : findHist (pruneHistoryForId id now h) id = some l) :
    l ≠ [] ∧ ∀ r ∈ l, u32sub now r.timestamp ≤ CHANGE_EXPIRATION_MS := by
  cases hf0 : findHist h id with
  | none =>
      rw [show pruneHistoryForId id now h = h
          from by unfold pruneHistoryForId; rw [hf0], hf0] at hf
      cases hf
  | some l0 =>
      by_cases he : (pruneList now l0).isEmpty
      · rw [show pruneHistoryForId id now h = eraseHist h id
            from by unfold pruneHistoryForId; rw [hf0]; simp [he],
          findHist_eraseHist_self h id hnd] at hf
        cases hf
      · rw [show pruneHistoryForId id now h = replaceHist h id (pruneList now l0)
            from by unfold pruneHistoryForId; rw [hf0]; simp [he],
          findHist_replaceHist_self h id l0 _ hf0] at hf
        injection hf with hf'
        subst hf'
        refine ⟨?_, pruneList_bounds now l0⟩
        intro h0
        rw [h0] at he
        exact he rfl

theorem pruneHistoryForId_no_empty (id now : Nat) (h : History)
    (hne : ∀ x ∈ h, x.2 ≠ []) :
    ∀ x ∈ pruneHistoryForId id now h, x.2 ≠ [] := by
  intro x hx
  cases hf0 : findHist h id with
  | none =>
      rw [show pruneHistoryForId id now h = h
          from by unfold pruneHistoryForId; rw [hf0]] at hx
      exact hne x hx
  | some l0 =>
      by_cases he : (pruneList now l0).isEmpty
      · rw [show pruneHistoryForId id now h = eraseHist h id
            from by unfold pruneHistoryForId; rw [hf0]; simp [he]] at hx
        exact hne x (mem_eraseHist h id x hx)
      · rw [show pruneHistoryForId id now h = replaceHist h id (pruneList now l0)
            from by unfold pruneHistoryForId; rw [hf0]; simp [he]] at hx
        rcases mem_replaceHist h id _ x hx with hx' | hx'
        · exact hne x hx'
        · rw [hx']
          intro h0
          rw [h0] at he
          exact he rfl

/-- **C6 counterexample.**  The claim quantifies over every key after any
pruning operation, including the per-key prune; but
`pruneHistoryForId(5, 20000)` does not touch key `7`'s list, whose event
stamped `4000` remains even though `now - observedAt = 16000` exceeds the
10000 ms window. -/
theorem post_prune_invariant_counterexample :
    findHist (pruneHistoryForId 5 20000 staleLedger) 7
      = some [(⟨4000, 0, 0, 0⟩ : ChangeRecord)]
    ∧ CHANGE_EXPIRATION_MS < u32sub 20000 4000 := by decide

/-- **C6 amended.**  After `pruneAllHistory(now)` every remaining ledger
entry is nonempty and all its events satisfy
`now - observedAt ≤ EXPIRATION_WINDOW`.  The per-key prune (and the prune
performed inside `collectHighlightMask`, whose ledger effect is exactly
`pruneHistoryForId`) guarantees the same for the pruned key's own entry
(given distinct ledger keys), leaves every other key's entry unchanged —
possibly still holding events older than the window — and never creates an
empty entry. -/
theorem post_prune_ledger_invariant (h : History) (id now : Nat) :
    (∀ x ∈ pruneAllHistory now h,
        x.2 ≠ [] ∧ ∀ r ∈ x.2, u32sub now r.timestamp ≤ CHANGE_EXPIRATION_MS)
    ∧ ((h.map Prod.fst).Nodup → ∀ l,
        findHist (pruneHistoryForId id now h) id = some l →
        l ≠ [] ∧ ∀ r ∈ l, u32sub now r.timestamp ≤ CHANGE_EXPIRATION_MS)
    ∧ (∀ k, k ≠ id → findHist (pruneHistoryForId id now h) k = findHist h k)
    ∧ (collectHighlightMask id now h).2 = pruneHistoryForId id now h
    ∧ ((∀ x ∈ h, x.2 ≠ []) → ∀ x ∈ pruneHistoryForId id now h, x.2 ≠ []) :=
  ⟨pruneAllHistory_entries now h,
    fun hnd l hf => pruneHistoryForId_self_entry id now h hnd l hf,
    fun k hk => findHist_pruneHistoryForId_ne h id now k hk,
    collectHighlightMask_snd id now h,
    fun hne => pruneHistoryForId_no_empty id now h hne⟩

/-- Witness for C6 at the concrete single-key ledger, pruned at
`now = 4000` (the event survives). -/
theorem post_prune_ledger_invariant_witness :
    ((staleLedger.map Prod.fst).Nodup ∧ (∀ x ∈ staleLedger, x.2 ≠ []))
    ∧ (∀ x ∈ pruneAllHistory 4000 staleLedger,
        x.2 ≠ [] ∧ ∀ r ∈ x.2, u32sub 4000 r.timestamp ≤ CHANGE_EXPIRATION_MS)
    ∧ (∀ l, findHist (pruneHistoryForId 7 4000 staleLedger) 7 = some l →
        l ≠ [] ∧ ∀ r ∈ l, u32sub 4000 r.timestamp ≤ CHANGE_EXPIRATION_MS)
    ∧ (collectHighlightMask 7 4000 staleLedger).2
        = pruneHistoryForId 7 4000 staleLedger
    ∧ (∀ x ∈ pruneHistoryForId 7 4000 staleLedger, x.2 ≠ []) :=
  ⟨⟨by decide, by decide⟩,
    (post_prune_ledger_invariant staleLedger 7 4000).1,
    (post_prune_ledger_invariant staleLedger 7 4000).2.1 (by decide),
    (post_prune_ledger_invariant staleLedger 7 4000).2.2.2.1,
    (post_prune_ledger_invariant staleLedger 7 4000).2.2.2.2 (by decide)⟩

/-! ### C7: the snapshot highlight rule -/

/-- **C7 counterexample.**  For a key ingested exactly once at `t=0` and
rendered at `now=20000`, the first-ingestion change events have expired,
the stored previous record is absent, and the row generator leaves byte 0
un-highlighted — while the claim's union rule (`specHighlight`, in which a
missing previous record counts as differing) demands a highlight.  The
claimed "if and only if" therefore fails on the code. -/
theorem snapshot_highlight_union_counterexample :
    (latestRowFor 20000 scenarioFirstOnly.previousMessages
        scenarioFirstOnly.changeHistory 1 ⟨0, 1, 1, [170]⟩).1.highlights.getD 0 false
      = false
    ∧ specHighlight
        (collectHighlightMask 1 20000 scenarioFirstOnly.changeHistory).1.1
        (lookupMsg scenarioFirstOnly.previousMessages 1) ⟨0, 1, 1, [170]⟩ 0 = true
    ∧ lookupMsg scenarioFirstOnly.previousMessages 1 = none := by decide

/-- **C7 amended.**  For every byte index `i` of a rendered record, the
snapshot highlight equals the union of the ledger's time-windowed mask bit
and the direct one-step comparison against the stored previous record,
where the comparison counts a previous record shorter than `i + 1` as
differing — but counts a missing previous record as *not* differing: with
no stored previous record the highlight is the ledger mask bit alone. -/
theorem snapshot_highlight_union_rule (now : Nat) (prevMap : MsgMap)
    (h : History) (k : Nat) (msg : CANMessage) (i : Nat)
    (hi : i < msg.length) :
    (latestRowFor now prevMap h k msg).1.highlights.getD i false
      = ((collectHighlightMask k now h).1.1.getD i false
          || match lookupMsg prevMap k with
             | some prev => decide (prev.length ≤ i)
                 || decide (msg.data.getD i 0 ≠ prev.data.getD i 0)
             | none => false) := by
  have hrw : (latestRowFor now prevMap h k msg).1.highlights
      = (List.range msg.length).map
          (rowHighlight (collectHighlightMask k now h).1.1
            (lookupMsg prevMap k) msg) := rfl
  rw [hrw, getD_map_range _ _ _ _ hi]
  unfold rowHighlight
  cases hp : lookupMsg prevMap k with
  | none => simp
  | some prev =>
      cases h0 : (collectHighlightMask k now h).1.1.getD i false <;> simp [h0]

/-- Witness for C7 at Scenario A's state, byte index 2 of key `0x123` at
`now = 100`. -/
theorem snapshot_highlight_union_rule_witness :
    (2 < scenarioA2.length)
    ∧ (latestRowFor 100 scenarioAState.previousMessages
          scenarioAState.changeHistory 291 scenarioA2).1.highlights.getD 2 false
      = ((collectHighlightMask 291 100 scenarioAState.changeHistory).1.1.getD 2 false
          || match lookupMsg scenarioAState.previousMessages 291 with
             | some prev => decide (prev.length ≤ 2)
                 || decide (scenarioA2.data.getD 2 0 ≠ prev.data.getD 2 0)
             | none => false) :=
  ⟨by decide,
    snapshot_highlight_union_rule 100 scenarioAState.previousMessages
      scenarioAState.changeHistory 291 scenarioA2 2 (by decide)⟩

/-! ### C8: partial-success parsing -/

theorem splitTokens_ne_nil (s : List Char) : splitTokens s ≠ [] := by
  cases s with
  | nil => simp [splitTokens]
  | cons c rest =>
      unfold splitTokens
      by_cases hc : c = ','
      · simp [hc]
      · simp only [hc, if_false]
        cases splitTokens rest <;> simp

theorem splitTokens_cons_ne (a : Char) (l : List Char) (ha : ¬ a = ',') :
    splitTokens (a :: l) = (match splitTokens l with
      | t :: ts => (a :: t) :: ts
      | [] => [[a]]) := by
  conv_lhs => rw [splitTokens]
  rw [if_neg ha]

theorem splitTokens_append (s1 s2 : List Char) :
    splitTokens (s1 ++ ',' :: s2) = splitTokens s1 ++ splitTokens s2 := by
  induction s1 with
  | nil =>
      show splitTokens (',' :: s2) = splitTokens [] ++ splitTokens s2
      conv_lhs => rw [splitTokens]
      rw [if_pos rfl]
      rfl
  | cons c rest ih =>
      by_cases hc : c = ','
      · subst hc
        show splitTokens (',' :: (rest ++ ',' :: s2)) = _
        conv_lhs => rw [splitTokens]
        rw [if_pos rfl, ih]
        conv_rhs => rw [splitTokens]
        rw [if_pos rfl]
        rfl
      · rw [show ((c :: rest) ++ ',' :: s2) = c :: (rest ++ ',' :: s2) from rfl,
          splitTokens_cons_ne c _ hc, splitTokens_cons_ne c rest hc, ih]
        cases hsr : splitTokens rest with
        | nil => exact absurd hsr (splitTokens_ne_nil rest)
        | cons t ts => rfl

theorem splitTokens_no_comma (t : List Char) (hc : ',' ∉ t) :
    splitTokens t = [t] := by
  induction t with
  | nil => rfl
  | cons c rest ih =>
      have hcne : ¬ c = ',' := fun h => hc (h ▸ List.mem_cons_self c rest)
      unfold splitTokens
      simp only [hcne, if_false]
      rw [ih (fun h => hc (List.mem_cons_of_mem _ h))]

theorem parseIdList_eq_filterMap (s : List Char) :
    parseIdList s = (splitTokens s).filterMap parseToken := by
  cases s with
  | nil => rfl
  | cons c rest => rfl

theorem parseIdList_append_comma (s1 s2 : List Char) :
    parseIdList (s1 ++ ',' :: s2) = parseIdList s1 ++ parseIdList s2 := by
  rw [parseIdList_eq_filterMap, parseIdList_eq_filterMap, parseIdList_eq_filterMap,
    splitTokens_append, List.filterMap_append]

theorem parseIdList_single_token (t : List Char) (ht : ',' ∉ t) :
    parseIdList t = (parseToken t).toList := by
  rw [parseIdList_eq_filterMap, splitTokens_no_comma t ht]
  cases hp : parseToken t <;> simp [List.filterMap_cons, hp]

/-- **C8** (partial-success parsing).  `parseIdList` is total, parses the
empty string to the empty key set, distributes over the comma delimiter —
so each token is parsed independently and a malformed token can never fail
the whole parse — and on a single delimiter-free token yields exactly the
token's parse: nothing for a malformed token (empty after trimming, or
non-numeric, when `parseToken` returns `none`), the parsed key
otherwise. -/
theorem parseIdList_partial_success (s1 s2 t : List Char) (ht : ',' ∉ t) :
    parseIdList [] = []
    ∧ parseIdList (s1 ++ ',' :: s2) = parseIdList s1 ++ parseIdList s2
    ∧ parseIdList t = (parseToken t).toList :=
  ⟨rfl, parseIdList_append_comma s1 s2, parseIdList_single_token t ht⟩

/-- Witness for C8: `"0x12"` and `"zz"` joined by a comma parse to the
valid half only, and the malformed single token `" 0Xzq "` is silently
discarded. -/
theorem parseIdList_partial_success_witness :
    (',' ∉ [' ', '0', 'X', 'z', 'q', ' '])
    ∧ parseIdList [] = []
    ∧ parseIdList (['0', 'x', '1', '2'] ++ ',' :: ['z', 'z'])
        = parseIdList ['0', 'x', '1', '2'] ++ parseIdList ['z', 'z']
    ∧ parseIdList [' ', '0', 'X', 'z', 'q', ' ']
        = (parseToken [' ', '0', 'X', 'z', 'q', ' ']).toList :=
  ⟨by decide,
    (parseIdList_partial_success ['0', 'x', '1', '2'] ['z', 'z']
      [' ', '0', 'X', 'z', 'q', ' '] (by decide)).1,
    (parseIdList_partial_success ['0', 'x', '1', '2'] ['z', 'z']
      [' ', '0', 'X', 'z', 'q', ' '] (by decide)).2.1,
    (parseIdList_partial_success ['0', 'x', '1', '2'] ['z', 'z']
      [' ', '0', 'X', 'z', 'q', ' '] (by decide)).2.2⟩

/-! ### C9: the filter round trip -/

theorem hexDigitChar_facts (d : Nat) (hd : d < 16) :
    isSpaceCh (hexDigitChar d) = false
    ∧ hexDigitChar d ≠ ','
    ∧ upChar (hexDigitChar d) ≠ '-'
    ∧ upChar (hexDigitChar d) ≠ '+'
    ∧ isHexDigitCh (upChar (hexDigitChar d)) = true
    ∧ hexVal (upChar (hexDigitChar d)) = d
    ∧ (hexDigitChar d = '0' ↔ d = 0)
    ∧ (upChar (hexDigitChar d) = '0' ↔ d = 0) := by
  interval_cases d <;> decide

theorem hexChars_mem (n : Nat) :
    ∀ c ∈ hexChars n, ∃ d, d < 16 ∧ c = hexDigitChar d := by
  induction n using Nat.strong_induction_on with
  | _ n ih =>
      by_cases h : n < 16
      · rw [hexChars, dif_pos h]
        intro c hc
        rw [List.mem_singleton] at hc
        exact ⟨n, h, hc⟩
      · rw [hexChars, dif_neg h]
        intro c hc
        rcases List.mem_append.mp hc with hc' | hc'
        · exact ih (n / 16) (Nat.div_lt_self (by omega) (by omega)) c hc'
        · rw [List.mem_singleton] at hc'
          exact ⟨n % 16, Nat.mod_lt _ (by omega), hc'⟩

theorem hexChars_head_ne_zero (n : Nat) :
    n ≠ 0 → ∃ a l, hexChars n = a :: l ∧ a ≠ '0' := by
  induction n using Nat.strong_induction_on with
  | _ n ih =>
      intro hn
      by_cases h : n < 16
      · refine ⟨hexDigitChar n, [], by rw [hexChars, dif_pos h], ?_⟩
        intro h0
        exact hn (((hexDigitChar_facts n h).2.2.2.2.2.2.1).mp h0)
      · obtain ⟨a, l, hal, ha⟩ :=
          ih (n / 16) (Nat.div_lt_self (by omega) (by omega)) (by omega)
        exact ⟨a, l ++ [hexDigitChar (n % 16)],
          by rw [hexChars, dif_neg h, hal]; rfl, ha⟩

theorem hexVal_foldl (n : Nat) :
    ∀ acc : Nat, ((hexChars n).map upChar).foldl (fun a c => a * 16 + hexVal c) acc
      = acc * 16 ^ (hexChars n).length + n := by
  induction n using Nat.strong_induction_on with
  | _ n ih =>
      intro acc
      by_cases h : n < 16
      · rw [hexChars, dif_pos h]
        simp only [List.map_cons, List.map_nil, List.foldl_cons, List.foldl_nil,
          List.length_singleton, pow_one]
        rw [(hexDigitChar_facts n h).2.2.2.2.2.1]
      · rw [hexChars, dif_neg h]
        rw [List.map_append, List.foldl_append,
          ih (n / 16) (Nat.div_lt_self (by omega) (by omega)) acc]
        simp only [List.map_cons, List.map_nil, List.foldl_cons, List.foldl_nil,
          List.length_append, List.length_singleton]
        rw [(hexDigitChar_facts (n % 16) (Nat.mod_lt _ (by omega))).2.2.2.2.2.1]
        have key : ∀ A : Nat, (A + n / 16) * 16 + n % 16 = A * 16 + n := by
          intro A
          omega
        rw [key (acc * 16 ^ (hexChars (n / 16)).length), pow_succ, ← mul_assoc]

theorem dropWhile_all_false (p : Char → Bool) (l : List Char)
    (h : ∀ c ∈ l, p c = false) : l.dropWhile p = l := by
  cases l with
  | nil => rfl
  | cons a t => simp [List.dropWhile_cons, h a (List.mem_cons_self a t)]

theorem trimChars_eq_self (s : List Char) (h : ∀ c ∈ s, isSpaceCh c = false) :
    trimChars s = s := by
  unfold trimChars
  rw [dropWhile_all_false _ _ h,
    dropWhile_all_false _ _ (fun c hc => h c (List.mem_reverse.mp hc)),
    List.reverse_reverse]

theorem hexDigitsOf_head_ne_zero (a : Char) (l : List Char) (ha : ¬ a = '0')
    (hall : ∀ c ∈ a :: l, isHexDigitCh c = true) :
    hexDigitsOf (a :: l) = a :: l := by
  cases l with
  | nil =>
      show (a :: []).takeWhile isHexDigitCh = a :: []
      exact List.takeWhile_eq_self_iff.mpr (fun x hx => hall x hx)
  | cons b r =>
      show (if a = '0' ∧ (b = 'x' ∨ b = 'X') then _ else
          (a :: b :: r).takeWhile isHexDigitCh) = a :: b :: r
      rw [if_neg (fun hcon => ha hcon.1)]
      exact List.takeWhile_eq_self_iff.mpr (fun x hx => hall x hx)

theorem strtoul16_cons_digit (a : Char) (l : List Char)
    (hm : a ≠ '-') (hp : a ≠ '+') :
    strtoul16 (a :: l)
      = (if (hexDigitsOf (a :: l)).isEmpty then none
         else some (if (hexDigitsOf (a :: l)).foldl (fun x c => x * 16 + hexVal c) 0 ≥ U32
                    then U32 - 1
                    else (hexDigitsOf (a :: l)).foldl (fun x c => x * 16 + hexVal c) 0)) := by
  unfold strtoul16
  simp only [if_neg hm, if_neg hp, Bool.false_eq_true, if_false]

theorem idToken_no_comma (n : Nat) : ',' ∉ idToken n := by
  intro hc
  rcases List.mem_cons.mp hc with h0 | hc
  · exact absurd h0 (by decide)
  rcases List.mem_cons.mp hc with h0 | hc
  · exact absurd h0 (by decide)
  obtain ⟨d, hd, hdc⟩ := hexChars_mem n ',' hc
  exact (hexDigitChar_facts d hd).2.1 hdc.symm

theorem parseToken_idToken (n : Nat) (hn : n < U32) :
    parseToken (idToken n) = some n := by
  have hnospace : ∀ c ∈ idToken n, isSpaceCh c = false := by
    intro c hc
    rcases List.mem_cons.mp hc with rfl | hc
    · decide
    rcases List.mem_cons.mp hc with rfl | hc
    · decide
    obtain ⟨d, hd, rfl⟩ := hexChars_mem n c hc
    exact (hexDigitChar_facts d hd).1
  have hup0 : upChar '0' = '0' := by decide
  have hupx : upChar 'x' = 'X' := by decide
  unfold parseToken
  rw [trimChars_eq_self _ hnospace]
  rw [if_neg (by simp [idToken])]
  have hup : (idToken n).map upChar = '0' :: 'X' :: (hexChars n).map upChar := by
    show upChar '0' :: upChar 'x' :: (hexChars n).map upChar = _
    rw [hup0, hupx]
  rw [hup]
  show strtoul16 ((hexChars n).map upChar) = some n
  by_cases hz : n = 0
  · subst hz
    rw [show hexChars 0 = ['0'] from by rw [hexChars, dif_pos (by omega : (0 : Nat) < 16)]; rfl]
    decide
  · have hall : ∀ c ∈ (hexChars n).map upChar, isHexDigitCh c = true := by
      intro c hc
      obtain ⟨c0, hc0, rfl⟩ := List.mem_map.mp hc
      obtain ⟨d, hd, rfl⟩ := hexChars_mem n c0 hc0
      exact (hexDigitChar_facts d hd).2.2.2.2.1
    have hfold : ((hexChars n).map upChar).foldl (fun a c => a * 16 + hexVal c) 0 = n := by
      have := hexVal_foldl n 0
      simpa using this
    obtain ⟨a, l, hal, ha⟩ := hexChars_head_ne_zero n hz
    obtain ⟨d, hd, had⟩ :=
      hexChars_mem n a (by rw [hal]; exact List.mem_cons_self _ _)
    have hdz : d ≠ 0 := by
      intro h0
      exact ha (had.trans (((hexDigitChar_facts d hd).2.2.2.2.2.2.1).mpr h0))
    have hane : upChar a ≠ '-' := by
      rw [had]
      exact (hexDigitChar_facts d hd).2.2.1
    have hape : upChar a ≠ '+' := by
      rw [had]
      exact (hexDigitChar_facts d hd).2.2.2.1
    have ha0 : ¬ upChar a = '0' := by
      rw [had]
      intro h0
      exact hdz (((hexDigitChar_facts d hd).2.2.2.2.2.2.2).mp h0)
    rw [hal] at hall hfold ⊢
    simp only [List.map_cons] at hall hfold ⊢
    rw [strtoul16_cons_digit (upChar a) _ hane hape,
      hexDigitsOf_head_ne_zero (upChar a) _ ha0 hall]
    simp only [List.isEmpty_cons, Bool.false_eq_true, if_false]
    rw [hfold]
    rw [if_neg (by omega : ¬ n ≥ U32)]

theorem parseIdList_idToken (n : Nat) (hn : n < U32) :
    parseIdList (idToken n) = [n] := by
  rw [parseIdList_single_token _ (idToken_no_comma n), parseToken_idToken n hn]
  rfl

/-- **C9** (filter round-trip).  Parsing the serialized form of a key list
— the `0x`-prefixed lower-case hexadecimal identifiers that
`generateIdListJson` emits, comma-joined as the client sends them back —
recovers exactly the original keys, for every list of `uint32_t` keys;
in particular the recovered key *set* equals the original set,
independent of order and with duplicates collapsed. -/
theorem filter_round_trip (ids : List Nat) (h : ∀ m ∈ ids, m < U32) :
    parseIdList (serializeIds ids) = ids := by
  induction ids with
  | nil => rfl
  | cons n rest ih =>
      have hn : n < U32 := h n (List.mem_cons_self _ _)
      have hrest : ∀ m ∈ rest, m < U32 := fun m hm => h m (List.mem_cons_of_mem _ hm)
      cases rest with
      | nil =>
          show parseIdList (idToken n) = [n]
          exact parseIdList_idToken n hn
      | cons n2 rest2 =>
          have hj : serializeIds (n :: n2 :: rest2)
              = idToken n ++ ',' :: serializeIds (n2 :: rest2) := rfl
          rw [hj, parseIdList_append_comma, parseIdList_idToken n hn, ih hrest]
          rfl

/-- Witness for C9 on the key list `[0x123, 0x10, 0, 0xffffffff]`. -/
theorem filter_round_trip_witness :
    (∀ m ∈ [291, 16, 0, 4294967295], m < U32)
    ∧ parseIdList (serializeIds [291, 16, 0, 4294967295])
        = [291, 16, 0, 4294967295] :=
  ⟨by decide, filter_round_trip [291, 16, 0, 4294967295] (by decide)⟩

/-! ### C10: the zero-timestamp sentinel collision in the filtered view -/

theorem maskOf_getD (l : List ChangeRecord) (i : Nat) (hi : i < 8) :
    (maskOf l).getD i false = l.any (fun r => r.byteIndex == i) := by
  unfold maskOf
  exact getD_map_range _ 8 i false hi

theorem expired_zero_of_le (now : Nat) (h : now ≤ CHANGE_EXPIRATION_MS) :
    expired now 0 = false := by
  have hz : u32sub now 0 = now := by
    have h' : now ≤ 10000 := h
    unfold u32sub U32
    omega
  unfold expired
  rw [hz]
  exact decide_eq_false_iff_not.mpr (not_lt.mpr h)

theorem filteredRowFor_snd (now : Nat) (prevMap : MsgMap) (h : History)
    (k : Nat) (msg : CANMessage) :
    (filteredRowFor now prevMap h k msg).2 = pruneHistoryForId k now h := by
  simp only [filteredRowFor]
  split
  · simp [collectHighlightMask_snd]
  · split <;> simp [collectHighlightMask_snd]

theorem filteredRowFor_fst_id (now : Nat) (prevMap : MsgMap) (h : History)
    (k : Nat) (msg : CANMessage) (row : RowData)
    (hrow : (filteredRowFor now prevMap h k msg).1 = some row) : row.id = k := by
  simp only [filteredRowFor] at hrow
  split at hrow
  · cases hrow
  · split at hrow
    · cases hrow
    · injection hrow with hrow'
      rw [← hrow']

theorem filteredRows_go_avoid (prevMap : MsgMap) (ids : List Nat)
    (now k : Nat) (l : List ChangeRecord)
    (hts : ∀ r ∈ l, r.timestamp = 0) (hlne : l ≠ [])
    (hnow : now ≤ CHANGE_EXPIRATION_MS) :
    ∀ (lm : MsgMap) (acc : List RowData) (h : History),
      findHist h k = some l →
      (∀ row ∈ acc, row.id ≠ k) →
      ∀ row ∈ (lm.foldl
          (fun acc kv =>
            if kv.1 ∈ ids then
              match filteredRowFor now prevMap acc.2 kv.1 kv.2 with
              | (some row, h') => (acc.1 ++ [row], h')
              | (none, h') => (acc.1, h')
            else acc)
          (acc, h)).1, row.id ≠ k := by
  have hprune : pruneList now l = l := by
    apply pruneList_eq_self
    intro r hr
    rw [hts r hr]
    exact expired_zero_of_le now hnow
  intro lm
  induction lm with
  | nil =>
      intro acc h hfind hacc
      simpa using hacc
  | cons kv rest ih =>
      intro acc h hfind hacc
      rw [List.foldl_cons]
      by_cases hin : kv.1 ∈ ids
      · rw [if_pos hin]
        by_cases hkk : kv.1 = k
        · subst hkk
          have hcol : collectHighlightMask kv.1 now h
              = ((maskOf l, lastChangeOf l), replaceHist h kv.1 l) := by
            unfold collectHighlightMask
            rw [hfind]
            simp only [hprune]
            obtain ⟨a, t, rfl⟩ := List.exists_cons_of_ne_nil hlne
            rfl
          have hlast : lastChangeOf l = 0 := lastChangeOf_eq_zero l hts
          have hrow : filteredRowFor now prevMap h kv.1 kv.2
              = (none, replaceHist h kv.1 l) := by
            simp only [filteredRowFor, hcol, hlast, if_true]
          rw [hrow]
          exact ih acc (replaceHist h kv.1 l)
            (findHist_replaceHist_self h kv.1 l l hfind) hacc
        · cases hrow : filteredRowFor now prevMap h kv.1 kv.2 with
          | mk orow h' =>
              have h'find : findHist h' k = some l := by
                have h'eq : h' = pruneHistoryForId kv.1 now h := by
                  have := filteredRowFor_snd now prevMap h kv.1 kv.2
                  rw [hrow] at this
                  exact this
                rw [h'eq, findHist_pruneHistoryForId_ne h kv.1 now k
                  (fun he => hkk he.symm)]
                exact hfind
              cases orow with
              | none => exact ih acc h' h'find hacc
              | some row =>
                  refine ih (acc ++ [row]) h' h'find ?_
                  intro row' hrow'
                  rcases List.mem_append.mp hrow' with hr' | hr'
                  · exact hacc row' hr'
                  · rw [List.mem_singleton] at hr'
                    subst hr'
                    have : row'.id = kv.1 := by
                      apply filteredRowFor_fst_id now prevMap h kv.1 kv.2
                      rw [hrow]
                    rw [this]
                    exact hkk
      · rw [if_neg hin]
        exact ih acc h hfind hacc

/-- **C10** (zero-timestamp sentinel collision).  `collectHighlightMask`
encodes "no last change" as the numeric timestamp `0`, and
`generateFilteredRows` skips every key whose reported last-change
timestamp is `0`.  Hence a key whose surviving change events all carry
`observedAt = 0` is omitted from the filtered view even though the events
are unexpired (`now ≤ EXPIRATION_WINDOW`, so pruning keeps them all) and
the key's highlight mask is non-empty. -/
theorem sentinel_zero_timestamp_omits_key (st : EngineState)
    (ids : List Nat) (now k : Nat) (l : List ChangeRecord)
    (hfind : findHist st.changeHistory k = some l) (hlne : l ≠ [])
    (hts : ∀ r ∈ l, r.timestamp = 0) (hnow : now ≤ CHANGE_EXPIRATION_MS)
    (hidx : ∃ r ∈ l, r.byteIndex < 8) :
    (∀ row ∈ (generateFilteredRows ids now st).1, row.id ≠ k)
    ∧ pruneList now l = l
    ∧ (∃ i, i < 8
        ∧ (collectHighlightMask k now st.changeHistory).1.1.getD i false = true) := by
  have hprune : pruneList now l = l := by
    apply pruneList_eq_self
    intro r hr
    rw [hts r hr]
    exact expired_zero_of_le now hnow
  have hcol : collectHighlightMask k now st.changeHistory
      = ((maskOf l, lastChangeOf l), replaceHist st.changeHistory k l) := by
    unfold collectHighlightMask
    rw [hfind]
    simp only [hprune]
    obtain ⟨a, t, rfl⟩ := List.exists_cons_of_ne_nil hlne
    rfl
  refine ⟨?_, hprune, ?_⟩
  · unfold generateFilteredRows
    exact filteredRows_go_avoid st.previousMessages ids now k l hts hlne hnow
      st.latestMessages [] st.changeHistory hfind (by simp)
  · obtain ⟨r, hrl, hrb⟩ := hidx
    refine ⟨r.byteIndex, hrb, ?_⟩
    rw [hcol]
    show (maskOf l).getD r.byteIndex false = true
    rw [maskOf_getD l r.byteIndex hrb]
    exact List.any_eq_true.mpr ⟨r, hrl, by simp⟩

/-- Witness for C10: key `0x300` ingested once at `t=0`, queried in the
filtered view at `now = 50`: its single change event is unexpired and its
mask bit 0 is set, yet no row for it is produced. -/
theorem sentinel_zero_timestamp_omits_key_witness :
    (findHist scenario300State.changeHistory 768
        = some [(⟨0, 0, 1, 1⟩ : ChangeRecord)]
      ∧ (∀ r ∈ [(⟨0, 0, 1, 1⟩ : ChangeRecord)], r.timestamp = 0)
      ∧ (50 : Nat) ≤ CHANGE_EXPIRATION_MS
      ∧ (∃ r ∈ [(⟨0, 0, 1, 1⟩ : ChangeRecord)], r.byteIndex < 8))
    ∧ ((∀ row ∈ (generateFilteredRows [768] 50 scenario300State).1, row.id ≠ 768)
      ∧ pruneList 50 [(⟨0, 0, 1, 1⟩ : ChangeRecord)] = [⟨0, 0, 1, 1⟩]
      ∧ (∃ i, i < 8
          ∧ (collectHighlightMask 768 50 scenario300State.changeHistory).1.1.getD i false
              = true)) :=
  ⟨⟨by decide, by decide, by decide, by decide⟩,
    sentinel_zero_timestamp_omits_key scenario300State [768] 50 768
      [⟨0, 0, 1, 1⟩] (by decide) (by decide) (by decide) (by decide) (by decide)⟩

end ESPCan
